import Mathlib

/-!
Verification of the OpenOT core (text OT algebra, authoritative server, memory
backend adapter) against its natural-language specification.

The text algebra is embedded from `packages/core/src/types/text.ts`; the server
from `packages/server/src/server.ts` (`Server.submitOperation`,
`Server.registerType`); the adapter from `packages/server/src/memory-adapter.ts`.
Snapshots are modeled as `List Char` (the algebra is uniform in the length unit,
so the JS UTF-16 code-unit measure and the code-point measure agree up to the
choice of alphabet). JS `Map`s are modeled as association lists, thrown
exceptions as `Except` errors; an `.error` result returns no new state, which
renders the fact that every `throw` in the modeled code happens before any
mutation of the backing maps.
-/

namespace OpenOT

/-- A component of a text operation (`OpComponent` in text.ts): Retain passes
through `n` units, Insert adds the string `s`, Delete skips `n` units.
Component sizes are natural numbers; `checkOp` in the source never inspects the
numbers, but no code path under verification constructs a negative or
fractional size. -/
inductive OpComponent : Type
  | retain (n : Nat)
  | insert (s : List Char)
  | delete (n : Nat)
deriving DecidableEq

/-- `TextOperation` from text.ts: an ordered list of components. -/
abbrev TextOperation := List OpComponent

/-- `getLength` from text.ts: insert measures its string, retain/delete their
count. -/
def getLength : OpComponent → Nat
  | .retain n => n
  | .insert s => s.length
  | .delete n => n

/-- Helper for `appendComp`: push `c` at the end of `acc`, merging it into the
last element when both have the same variant (the tail recursion walks to the
end of the list, mirroring `op[op.length - 1]` access in the source). -/
def pushMerge : TextOperation → OpComponent → TextOperation
  | [], c => [c]
  | [a], c =>
      match a, c with
      | .retain n, .retain m => [.retain (n + m)]
      | .insert s, .insert t => [.insert (s ++ t)]
      | .delete n, .delete m => [.delete (n + m)]
      | a, c => [a, c]
  | x :: xs, c => x :: pushMerge xs c

/-- `append` from text.ts: drop zero-sized components (`r === 0`, `i === ""`,
`d === 0`, i.e. exactly `getLength c = 0`), otherwise push merging with the
last component. -/
def appendComp (acc : TextOperation) (c : OpComponent) : TextOperation :=
  if getLength c = 0 then acc else pushMerge acc c

/-- `normalize` from text.ts: rebuild the operation by appending every
component through the merging `append` (the source clones each component
before appending, which is irrelevant in a functional setting). -/
def normalize (op : TextOperation) : TextOperation :=
  op.foldl appendComp []

/-- The scanning loop of `TextType.apply` from text.ts. `index` is the cursor
into `snapshot`; insert copies its text, retain copies
`snapshot.slice(index, index + n)` and advances, delete advances without
copying, and a retain/delete that would push `index` past the end fails
(`OpOutOfBounds`, the thrown "past the end" error, rendered as `none`).
The `[]` case renders the code after the loop: the untraversed tail
`snapshot.slice(index)` is appended to the result (lenient tail; it is `[]`
when `index` reached the end). -/
def applyGo (snapshot : List Char) : TextOperation → Nat → Option (List Char)
  | [], index => some (snapshot.drop index)
  | .insert s :: rest, index => (applyGo snapshot rest index).map (fun r => s ++ r)
  | .retain n :: rest, index =>
      if snapshot.length < index + n then none
      else (applyGo snapshot rest (index + n)).map
        (fun r => (snapshot.drop index).take n ++ r)
  | .delete n :: rest, index =>
      if snapshot.length < index + n then none
      else applyGo snapshot rest (index + n)

/-- The tie-break side argument of `transform` (`"left" | "right"`). -/
inductive Side : Type
  | left
  | right
deriving DecidableEq

/-- The main loop of `TextType.transform` from text.ts, written as a recursion
in which the source's cursor-plus-offset state `(iA, offsetA, iB, offsetB)` is
rendered by keeping, on each side, the not-yet-consumed remainder of the
operation (the head component is replaced by its unconsumed part, exactly
`getLength(c) - offset`). An exhausted side stands for the implicit
`Retain(Infinity)` of the source. Each equation is one branch of the loop:
insert-vs-insert splits on `side`; an insert on one side against a non-insert
on the other is emitted (A) or retained (B) whole; retain/delete pairs emit
over `minLen` and the side whose remainder is exhausted (`offset >= length`)
advances, both advancing on a tie. The emitted components are collected in
order; the source pushes them through the merging `append` and finally calls
`normalize`, see `TextType.transform` below. -/
def transformGo : TextOperation → TextOperation → Side → TextOperation
  -- both sides insert: the side argument breaks the tie
  | .insert sa :: as, .insert sb :: bs, side =>
      match side with
      | .left => .insert sa :: transformGo as (.insert sb :: bs) side
      | .right => .retain sb.length :: transformGo (.insert sa :: as) bs side
  -- A inserts, B does not: A's insert happens verbatim
  | .insert sa :: as, .retain m :: bs, side => .insert sa :: transformGo as (.retain m :: bs) side
  | .insert sa :: as, .delete m :: bs, side => .insert sa :: transformGo as (.delete m :: bs) side
  | .insert sa :: as, [], side => .insert sa :: transformGo as [] side
  -- B inserts, A does not: A retains over B's insertion
  | .retain n :: as, .insert sb :: bs, side => .retain sb.length :: transformGo (.retain n :: as) bs side
  | .delete n :: as, .insert sb :: bs, side => .retain sb.length :: transformGo (.delete n :: as) bs side
  | [], .insert sb :: bs, side => .retain sb.length :: transformGo [] bs side
  -- retain vs retain: emit Retain(minLen)
  | .retain n :: as, .retain m :: bs, side =>
      if n < m then .retain n :: transformGo as (.retain (m - n) :: bs) side
      else if m < n then .retain m :: transformGo (.retain (n - m) :: as) bs side
      else .retain n :: transformGo as bs side
  -- retain vs delete: B already removed it, emit nothing
  | .retain n :: as, .delete m :: bs, side =>
      if n < m then transformGo as (.delete (m - n) :: bs) side
      else if m < n then transformGo (.retain (n - m) :: as) bs side
      else transformGo as bs side
  -- delete vs retain: emit Delete(minLen)
  | .delete n :: as, .retain m :: bs, side =>
      if n < m then .delete n :: transformGo as (.retain (m - n) :: bs) side
      else if m < n then .delete m :: transformGo (.delete (n - m) :: as) bs side
      else .delete n :: transformGo as bs side
  -- delete vs delete: redundant, emit nothing
  | .delete n :: as, .delete m :: bs, side =>
      if n < m then transformGo as (.delete (m - n) :: bs) side
      else if m < n then transformGo (.delete (n - m) :: as) bs side
      else transformGo as bs side
  -- B exhausted: implicit Retain(Infinity) on the right
  | .retain n :: as, [], side => .retain n :: transformGo as [] side
  | .delete n :: as, [], side => .delete n :: transformGo as [] side
  -- A exhausted: implicit Retain(Infinity) on the left
  | [], .retain m :: bs, side => .retain m :: transformGo [] bs side
  | [], .delete m :: bs, side => transformGo [] bs side
  | [], [], _ => []
termination_by a b _ => a.length + b.length

/-- The main loop of `TextType.compose` from text.ts, in the same
remainder-passing rendering as `transformGo`. Branch priority follows the
source: a delete at A's head is emitted first; then an insert at B's head;
then retain/insert (A) against retain/delete (B) over `minLen`, where an
insert of A against a retain of B emits `cA.i.substr(offsetA, minLen)`
(`take minLen` of the remainder) and against a delete of B cancels. -/
def composeGo : TextOperation → TextOperation → TextOperation
  -- A deletes: it happens before B sees it
  | .delete n :: as, b => .delete n :: composeGo as b
  -- B inserts (A's head is not a delete): it happens after A
  | [], .insert t :: bs => .insert t :: composeGo [] bs
  | .retain n :: as, .insert t :: bs => .insert t :: composeGo (.retain n :: as) bs
  | .insert s :: as, .insert t :: bs => .insert t :: composeGo (.insert s :: as) bs
  -- retain vs retain: Retain(minLen)
  | .retain n :: as, .retain m :: bs =>
      if n < m then .retain n :: composeGo as (.retain (m - n) :: bs)
      else if m < n then .retain m :: composeGo (.retain (n - m) :: as) bs
      else .retain n :: composeGo as bs
  -- retain vs delete: Delete(minLen)
  | .retain n :: as, .delete m :: bs =>
      if n < m then .delete n :: composeGo as (.delete (m - n) :: bs)
      else if m < n then .delete m :: composeGo (.retain (n - m) :: as) bs
      else .delete n :: composeGo as bs
  -- insert vs retain: the retained slice of the insert survives
  | .insert s :: as, .retain m :: bs =>
      if s.length < m then .insert s :: composeGo as (.retain (m - s.length) :: bs)
      else if m < s.length then .insert (s.take m) :: composeGo (.insert (s.drop m) :: as) bs
      else .insert s :: composeGo as bs
  -- insert vs delete: cancellation, emit nothing
  | .insert s :: as, .delete m :: bs =>
      if s.length < m then composeGo as (.delete (m - s.length) :: bs)
      else if m < s.length then composeGo (.insert (s.drop m) :: as) bs
      else composeGo as bs
  -- B exhausted: implicit Retain(Infinity) on the right
  | .retain n :: as, [] => .retain n :: composeGo as []
  | .insert s :: as, [] => .insert s :: composeGo as []
  -- A exhausted: implicit Retain(Infinity) on the left
  | [], .retain m :: bs => .retain m :: composeGo [] bs
  | [], .delete m :: bs => .delete m :: composeGo [] bs
  | [], [] => []
termination_by a b => a.length + b.length

namespace TextType

/-- `TextType.apply` from text.ts on a structurally valid operation: the scan
loop starting at index 0 (the `checkOp` guard is the raw layer below;
`OpOutOfBounds` is rendered as `none`). -/
def apply (snapshot : List Char) (op : TextOperation) : Option (List Char) :=
  applyGo snapshot op 0

/-- `TextType.transform` from text.ts on structurally valid operations. The
loop pushes its emissions through the merging `append` into `newOp` — that
accumulation is exactly one `normalize` pass over the emission sequence
`transformGo opA opB side` — and the source then returns `normalize(newOp)`,
the outer pass here. -/
def transform (opA opB : TextOperation) (side : Side) : TextOperation :=
  normalize (normalize (transformGo opA opB side))

/-- `TextType.compose` from text.ts on structurally valid operations, with the
same append-accumulation (inner pass) and final `normalize` (outer pass) as
`transform`. -/
def compose (opA opB : TextOperation) : TextOperation :=
  normalize (normalize (composeGo opA opB))

end TextType

/-! ### The raw component layer and `checkOp`

The source operates on untyped JSON-ish values; `checkOp` rejects an array
element that is not an Insert, Retain or Delete object. `RawComponent.unknown`
stands for such an element. -/

/-- An element of an operation as the source receives it: either a structurally
valid component or an unrecognized object (one carrying none of the `i`/`r`/`d`
keys). -/
inductive RawComponent : Type
  | comp (c : OpComponent)
  | unknown
deriving DecidableEq

/-- `checkOp` from text.ts: every element must be an Insert, Retain or Delete
component. (The source also rejects a non-array argument and non-object
elements, which the `List RawComponent` type cannot express.) -/
def checkOp (op : List RawComponent) : Bool :=
  op.all fun c => match c with
    | .comp _ => true
    | .unknown => false

/-- Strip the raw wrapper, dropping unknown elements; used only after
`checkOp` has succeeded, where it is injective. -/
def stripRaw (op : List RawComponent) : TextOperation :=
  op.filterMap fun c => match c with
    | .comp c => some c
    | .unknown => none

/-- The two failure modes of the text algebra named by the spec:
`OpMalformed` for a `checkOp` rejection, `OpOutOfBounds` for an apply scan
that overruns the snapshot. -/
inductive TextError : Type
  | opMalformed
  | opOutOfBounds
deriving DecidableEq

/-- `TextType.apply` from text.ts as called on raw input: `checkOp(op)` first
(throwing `OpMalformed`), then the scan loop (throwing `OpOutOfBounds` on
overrun). -/
def applyR (snapshot : List Char) (op : List RawComponent) :
    Except TextError (List Char) :=
  if checkOp op then
    match TextType.apply snapshot (stripRaw op) with
    | some r => .ok r
    | none => .error .opOutOfBounds
  else .error .opMalformed

/-- `TextType.transform` from text.ts as called on raw input: `checkOp(opA)`
and `checkOp(opB)` first, then the total loop. -/
def transformR (opA opB : List RawComponent) (side : Side) :
    Except TextError TextOperation :=
  if checkOp opA ∧ checkOp opB then
    .ok (TextType.transform (stripRaw opA) (stripRaw opB) side)
  else .error .opMalformed

/-- `TextType.compose` from text.ts as called on raw input: `checkOp(opA)` and
`checkOp(opB)` first, then the total loop. -/
def composeR (opA opB : List RawComponent) :
    Except TextError TextOperation :=
  if checkOp opA ∧ checkOp opB then
    .ok (TextType.compose (stripRaw opA) (stripRaw opB))
  else .error .opMalformed

/-! ### Spec-side well-formedness

Spec §3: an operation is normalized iff no component is zero-sized/empty and
no two consecutive components share the same variant. The claims' "well-formed
text operation" is this condition. -/

/-- Whether two components share the same variant. -/
def sameKind : OpComponent → OpComponent → Bool
  | .retain _, .retain _ => true
  | .insert _, .insert _ => true
  | .delete _, .delete _ => true
  | _, _ => false

/-- Modelled from the spec (§3): the normalization predicate — no zero-sized or
empty component, and no two consecutive components of the same variant. -/
def normalizedOp : TextOperation → Bool
  | [] => true
  | [c] => getLength c ≠ 0
  | c :: c' :: rest => getLength c ≠ 0 && !sameKind c c' && normalizedOp (c' :: rest)

/-- Modelled from the spec (§3), on raw input: every element is a structurally
valid component and the stripped operation is normalized. -/
def normalizedRaw (op : List RawComponent) : Bool :=
  checkOp op && normalizedOp (stripRaw op)

/-! ### Proof-side semantics

`applyRec` restates the apply scan with the remaining snapshot threaded
instead of an index, and `runOp` is its strict prefix form returning the
output produced so far together with the untraversed remainder of the
snapshot. Both are related to the source's `applyGo` below and exist only to
structure the proofs. -/

/-- The apply scan, with the not-yet-traversed part of the snapshot as
argument and the lenient tail appended at the end. -/
def applyRec : TextOperation → List Char → Option (List Char)
  | [], s => some s
  | .insert t :: rest, s => (applyRec rest s).map (fun r => t ++ r)
  | .retain n :: rest, s =>
      if s.length < n then none
      else (applyRec rest (s.drop n)).map (fun r => s.take n ++ r)
  | .delete n :: rest, s =>
      if s.length < n then none else applyRec rest (s.drop n)

/-- The apply scan without the lenient tail: on success it returns the output
of the components together with the untraversed remainder of the snapshot. -/
def runOp : TextOperation → List Char → Option (List Char × List Char)
  | [], s => some ([], s)
  | .insert t :: rest, s => (runOp rest s).map (fun p => (t ++ p.1, p.2))
  | .retain n :: rest, s =>
      if s.length < n then none
      else (runOp rest (s.drop n)).map (fun p => (s.take n ++ p.1, p.2))
  | .delete n :: rest, s =>
      if s.length < n then none else runOp rest (s.drop n)

/-! ### The scan-prefix characterization of apply (claim C5)

`consumedLen` is how far a component list advances the snapshot cursor
(retain and delete advance, insert does not); `outputNoTail` is the output of
the scan without the lenient tail. Both follow the spec's description of the
scan, not the code, and the claim-level theorem relates them to the embedded
`apply`. -/

/-- Modelled from the spec (§4.1): total cursor advance of an operation —
retain and delete advance the index by their count, insert does not move it. -/
def consumedLen : TextOperation → Nat
  | [] => 0
  | .retain n :: rest => n + consumedLen rest
  | .insert _ :: rest => consumedLen rest
  | .delete n :: rest => n + consumedLen rest

/-- Modelled from the spec (§4.1): the output of the apply scan without the
lenient tail — retain copies the next `n` units, insert copies its text,
delete skips. -/
def outputNoTail : TextOperation → List Char → List Char
  | [], _ => []
  | .insert t :: rest, s => t ++ outputNoTail rest s
  | .retain n :: rest, s => s.take n ++ outputNoTail rest (s.drop n)
  | .delete n :: rest, s => outputNoTail rest (s.drop n)

/-! ### Server and memory adapter

`Server` is embedded from `packages/server/src/server.ts`, `MemoryBackend`
from `packages/server/src/memory-adapter.ts`. JS `Map`s are modeled as
association lists with `mapGet`/`mapSet` (insertion order is not observed by
any code under verification). A thrown error is an `Except.error` carrying no
new state: every `throw` in the modeled methods occurs before any mutation,
so the erroring call leaves the backend exactly as it was. -/

/-- `Map.get`: the value stored under `k`, if any. -/
def mapGet {α : Type} (m : List (String × α)) (k : String) : Option α :=
  (m.find? (fun p => p.1 == k)).map (fun p => p.2)

/-- `Map.set`: bind `k` to `v`, replacing any previous binding. -/
def mapSet {α : Type} (m : List (String × α)) (k : String) (v : α) :
    List (String × α) :=
  (k, v) :: m.filter (fun p => p.1 != k)

/-- `DocumentRecord` from the server package's interfaces: type name, revision
`v`, and the stored snapshot (`data`). -/
structure DocumentRecord (σ : Type) where
  type : String
  v : Nat
  data : σ
deriving DecidableEq

/-- `MemoryBackend` from memory-adapter.ts: a map of document records and a
map of per-document operation logs. -/
structure MemoryBackend (σ ω : Type) where
  documents : List (String × DocumentRecord σ)
  history : List (String × List ω)
deriving DecidableEq

/-- The server-side failure modes named by the spec, each rendering one
`throw` site of the modeled code. -/
inductive ServerError : Type
  | documentNotFound
  | typeUnknown
  | revisionFromFuture
  | concurrencyConflict
deriving DecidableEq

namespace MemoryBackend

/-- `MemoryBackend.createDocument`: unconditionally store a fresh record
`{type, v: 0, data: initialSnapshot}` and an empty log under `docId`,
replacing whatever was there. The source never checks for an existing
document and cannot fail. -/
def createDocument {σ ω : Type} (b : MemoryBackend σ ω) (docId : String)
    (ty : String) (initialSnapshot : σ) : MemoryBackend σ ω :=
  { b with
    documents := mapSet b.documents docId ⟨ty, 0, initialSnapshot⟩,
    history := mapSet b.history docId [] }

/-- `MemoryBackend.getRecord`: the stored record, or the thrown
"Document not found" error. -/
def getRecord {σ ω : Type} (b : MemoryBackend σ ω) (docId : String) :
    Except ServerError (DocumentRecord σ) :=
  match mapGet b.documents docId with
  | none => .error .documentNotFound
  | some doc => .ok doc

/-- `MemoryBackend.getHistory`: `(this.history.get(docId) || []).slice(start,
end)`; a missing second bound means "to the tail". -/
def getHistory {σ ω : Type} (b : MemoryBackend σ ω) (docId : String)
    (start : Nat) (stop : Option Nat) : List ω :=
  let ops := (mapGet b.history docId).getD []
  match stop with
  | none => ops.drop start
  | some e => (ops.take e).drop start

/-- `MemoryBackend.saveOperation`: fail `Document not found` if the record is
missing; fail with the concurrency error unless `doc.v + 1 === newRevision`;
otherwise push `op` onto the log and set `doc.v := newRevision`. Both throws
precede the mutations, so an error leaves the backend unchanged. When the
history map has no entry the source pushes into a fresh `[]` that is never
stored back, so the history is unchanged in that corner. -/
def saveOperation {σ ω : Type} (b : MemoryBackend σ ω) (docId : String)
    (op : ω) (newRevision : Nat) : Except ServerError (MemoryBackend σ ω) :=
  match mapGet b.documents docId with
  | none => .error .documentNotFound
  | some doc =>
      if doc.v + 1 ≠ newRevision then .error .concurrencyConflict
      else .ok { b with
        documents := mapSet b.documents docId { doc with v := newRevision },
        history :=
          match mapGet b.history docId with
          | some ops => mapSet b.history docId (ops ++ [op])
          | none => b.history }

end MemoryBackend

/-- The `OTType` interface from core's interfaces.ts, restricted to the
members the server code under verification touches: `registerType` keys on
`name`, `submitOperation` calls `transform`; `create` is kept to distinguish
types. The text type's own `apply`/`compose` are embedded directly above. -/
structure OTType (σ ω : Type) where
  name : String
  create : σ
  transform : ω → ω → Side → ω

/-- The `TextType` object of text.ts packaged as an `OTType` (its `create()`
returns the empty string). -/
def textOTType : OTType (List Char) TextOperation :=
  { name := "text", create := [], transform := TextType.transform }

/-- A second type carrying the same name `"text"` as `textOTType` but a
different `create`, used to observe what `registerType` does on a name
collision. -/
def textOTTypeAlt : OTType (List Char) TextOperation :=
  { name := "text", create := ['x'], transform := TextType.transform }

/-- The `Server` class from server.ts, with its backend instantiated at the
in-repo memory adapter: a registry of types keyed by name, plus the backend. -/
structure Server (σ ω : Type) where
  types : List (String × OTType σ ω)
  backend : MemoryBackend σ ω

namespace Server

/-- `Server.registerType`: `this.types.set(type.name, type)` — an
unconditional overwrite of whatever was registered under that name. -/
def registerType {σ ω : Type} (s : Server σ ω) (t : OTType σ ω) : Server σ ω :=
  { s with types := mapSet s.types t.name t }

/-- `Server.submitOperation` from server.ts: load the record (failing
`Document not found`), look up the registered type (failing `Unknown type`),
reject a revision from the future (`Invalid revision`), transform the
submitted op against the history tail since `revision` with side `right`
(oldest first) when the client is behind, and commit through
`saveOperation` at `record.v + 1`. -/
def submitOperation {σ ω : Type} (s : Server σ ω) (docId : String) (op : ω)
    (revision : Nat) : Except ServerError ((ω × Nat) × Server σ ω) :=
  match s.backend.getRecord docId with
  | .error e => .error e
  | .ok record =>
    match mapGet s.types record.type with
    | none => .error .typeUnknown
    | some ty =>
      if revision > record.v then .error .revisionFromFuture
      else
        let finalOp :=
          if revision < record.v then
            (s.backend.getHistory docId revision none).foldl
              (fun acc pastOp => ty.transform acc pastOp .right) op
          else op
        let newRevision := record.v + 1
        match s.backend.saveOperation docId finalOp newRevision with
        | .error e => .error e
        | .ok b2 => .ok ((finalOp, newRevision), { s with backend := b2 })

end Server


/-! ## Theorems -/

theorem applyGo_eq_applyRec (s : List Char) (op : TextOperation) :
    ∀ i, i ≤ s.length → applyGo s op i = applyRec op (s.drop i) := by
  induction op with
  | nil => intro i _; simp [applyGo, applyRec]
  | cons c rest ih =>
    intro i hi
    cases c with
    | insert t => simp [applyGo, applyRec, ih i hi]
    | retain n =>
        simp only [applyGo, applyRec, List.length_drop]
        by_cases hc : s.length < i + n
        · rw [if_pos hc, if_pos (by omega)]
        · rw [if_neg hc, if_neg (by omega), ih (i + n) (by omega), List.drop_drop]
    | delete n =>
        simp only [applyGo, applyRec, List.length_drop]
        by_cases hc : s.length < i + n
        · rw [if_pos hc, if_pos (by omega)]
        · rw [if_neg hc, if_neg (by omega), ih (i + n) (by omega), List.drop_drop]

theorem apply_eq_applyRec (s : List Char) (op : TextOperation) :
    TextType.apply s op = applyRec op s := by
  simpa using applyGo_eq_applyRec s op 0 (Nat.zero_le _)

theorem applyRec_eq_runOp (op : TextOperation) (s : List Char) :
    applyRec op s = (runOp op s).map (fun p => p.1 ++ p.2) := by
  induction op generalizing s with
  | nil => simp [applyRec, runOp]
  | cons c rest ih =>
    cases c with
    | insert t =>
        simp only [applyRec, runOp, ih]
        cases runOp rest s <;> simp [List.append_assoc]
    | retain n =>
        simp only [applyRec, runOp]
        by_cases hc : s.length < n
        · rw [if_pos hc, if_pos hc]; rfl
        · rw [if_neg hc, if_neg hc, ih]
          cases runOp rest (s.drop n) <;> simp [List.append_assoc]
    | delete n =>
        simp only [applyRec, runOp]
        by_cases hc : s.length < n
        · rw [if_pos hc, if_pos hc]; rfl
        · rw [if_neg hc, if_neg hc, ih]

theorem runOp_append (xs ys : TextOperation) (s : List Char) :
    runOp (xs ++ ys) s =
      (runOp xs s).bind (fun p => (runOp ys p.2).map (fun q => (p.1 ++ q.1, q.2))) := by
  induction xs generalizing s with
  | nil =>
      simp only [List.nil_append, runOp, Option.some_bind]
      cases runOp ys s <;> simp
  | cons c rest ih =>
    cases c with
    | insert t =>
        simp only [List.cons_append, runOp, ih, List.append_eq]
        cases runOp rest s with
        | none => rfl
        | some p =>
            simp only [Option.some_bind, Option.map_map]
            cases hys : runOp ys p.2 <;> simp [hys, List.append_assoc]
    | retain n =>
        simp only [List.cons_append, runOp, List.append_eq]
        by_cases hc : s.length < n
        · rw [if_pos hc, if_pos hc]; rfl
        · rw [if_neg hc, if_neg hc, ih]
          cases runOp rest (s.drop n) with
          | none => rfl
          | some p =>
              simp only [Option.some_bind, Option.map_map]
              cases hys : runOp ys p.2 <;> simp [hys, List.append_assoc]
    | delete n =>
        simp only [List.cons_append, runOp, List.append_eq]
        by_cases hc : s.length < n
        · rw [if_pos hc, if_pos hc]; rfl
        · rw [if_neg hc, if_neg hc, ih]

theorem runOp_zero {c : OpComponent} (h : getLength c = 0) (s : List Char) :
    runOp [c] s = some ([], s) := by
  cases c with
  | insert t =>
      have : t = [] := List.length_eq_zero.mp h
      simp [runOp, this]
  | retain n =>
      have : n = 0 := h
      simp [runOp, this]
  | delete n =>
      have : n = 0 := h
      simp [runOp, this]

theorem runOp_pushMerge (acc : TextOperation) (c : OpComponent) (s : List Char) :
    runOp (pushMerge acc c) s = runOp (acc ++ [c]) s := by
  induction acc generalizing s with
  | nil => simp [pushMerge]
  | cons x tail ih =>
    cases tail with
    | nil =>
        cases x with
        | retain n =>
            cases c with
            | retain m =>
                simp only [pushMerge, runOp, List.cons_append, List.nil_append,
                  List.length_drop]
                by_cases h1 : s.length < n
                · rw [if_pos (show s.length < n + m by omega), if_pos h1]
                · rw [if_neg h1]
                  by_cases h2 : s.length - n < m
                  · rw [if_pos h2, if_pos (show s.length < n + m by omega)]
                    rfl
                  · rw [if_neg h2, if_neg (show ¬s.length < n + m by omega)]
                    simp [runOp, List.drop_drop, List.take_add]
            | insert t => simp [pushMerge, runOp]
            | delete m => simp [pushMerge, runOp]
        | insert u =>
            cases c with
            | retain m => simp [pushMerge, runOp]
            | insert t => simp [pushMerge, runOp, List.append_assoc]
            | delete m => simp [pushMerge, runOp]
        | delete n =>
            cases c with
            | retain m => simp [pushMerge, runOp]
            | insert t => simp [pushMerge, runOp]
            | delete m =>
                simp only [pushMerge, runOp, List.cons_append, List.nil_append,
                  List.length_drop]
                by_cases h1 : s.length < n
                · rw [if_pos (show s.length < n + m by omega), if_pos h1]
                · rw [if_neg h1]
                  by_cases h2 : s.length - n < m
                  · rw [if_pos h2, if_pos (show s.length < n + m by omega)]
                  · rw [if_neg h2, if_neg (show ¬s.length < n + m by omega)]
                    simp [runOp, List.drop_drop]
    | cons y rest =>
        cases x with
        | insert t =>
            simp only [pushMerge, runOp, List.cons_append, List.append_eq, ih]
        | retain n =>
            simp only [pushMerge, runOp, List.cons_append, List.append_eq]
            by_cases hc : s.length < n
            · rw [if_pos hc, if_pos hc]
            · rw [if_neg hc, if_neg hc, ih]
              simp [List.cons_append]
        | delete n =>
            simp only [pushMerge, runOp, List.cons_append, List.append_eq]
            by_cases hc : s.length < n
            · rw [if_pos hc, if_pos hc]
            · rw [if_neg hc, if_neg hc, ih]
              simp [List.cons_append]

theorem runOp_appendComp (acc : TextOperation) (c : OpComponent) (s : List Char) :
    runOp (appendComp acc c) s = runOp (acc ++ [c]) s := by
  by_cases h : getLength c = 0
  · rw [appendComp, if_pos h, runOp_append]
    have hz : ∀ r, runOp [c] r = some ([], r) := runOp_zero h
    cases runOp acc s with
    | none => rfl
    | some p => simp [hz]
  · rw [appendComp, if_neg h, runOp_pushMerge]

theorem runOp_foldl_appendComp (l : TextOperation) :
    ∀ (acc : TextOperation) (s : List Char),
      runOp (l.foldl appendComp acc) s = runOp (acc ++ l) s := by
  induction l with
  | nil => intro acc s; simp
  | cons c l ih =>
    intro acc s
    rw [List.foldl_cons, ih]
    have h1 : acc ++ c :: l = (acc ++ [c]) ++ l := by simp
    rw [h1, runOp_append, runOp_append, runOp_appendComp]

theorem runOp_normalize (op : TextOperation) (s : List Char) :
    runOp (normalize op) s = runOp op s := by
  rw [normalize, runOp_foldl_appendComp, List.nil_append]

theorem applyRec_normalize (op : TextOperation) (s : List Char) :
    applyRec (normalize op) s = applyRec op s := by
  rw [applyRec_eq_runOp, applyRec_eq_runOp, runOp_normalize]

/-! ### Inversion lemmas for the apply scan -/

theorem applyRec_insert_iff {t : List Char} {rest : TextOperation} {s t₁ : List Char} :
    applyRec (.insert t :: rest) s = some t₁ ↔
      ∃ r, applyRec rest s = some r ∧ t ++ r = t₁ := by
  simp [applyRec, Option.map_eq_some']

theorem applyRec_retain_iff {n : Nat} {rest : TextOperation} {s t₁ : List Char} :
    applyRec (.retain n :: rest) s = some t₁ ↔
      n ≤ s.length ∧ ∃ r, applyRec rest (s.drop n) = some r ∧ s.take n ++ r = t₁ := by
  by_cases h : s.length < n
  · simp [applyRec, h, show ¬n ≤ s.length by omega]
  · simp [applyRec, h, Option.map_eq_some', show n ≤ s.length by omega]

theorem applyRec_delete_iff {n : Nat} {rest : TextOperation} {s t₁ : List Char} :
    applyRec (.delete n :: rest) s = some t₁ ↔
      n ≤ s.length ∧ applyRec rest (s.drop n) = some t₁ := by
  by_cases h : s.length < n
  · simp [applyRec, h, show ¬n ≤ s.length by omega]
  · simp [applyRec, h, show n ≤ s.length by omega]

theorem applyRec_insert_build {X : TextOperation} {t r u : List Char}
    (h : applyRec X r = some u) : applyRec (.insert t :: X) r = some (t ++ u) :=
  applyRec_insert_iff.mpr ⟨u, h, rfl⟩

theorem applyRec_retain_le {X : TextOperation} {s u : List Char} {n : Nat}
    (hn : n ≤ s.length) (h : applyRec X (s.drop n) = some u) :
    applyRec (.retain n :: X) s = some (s.take n ++ u) :=
  applyRec_retain_iff.mpr ⟨hn, u, h, rfl⟩

theorem applyRec_delete_le {X : TextOperation} {s u : List Char} {n : Nat}
    (hn : n ≤ s.length) (h : applyRec X (s.drop n) = some u) :
    applyRec (.delete n :: X) s = some u :=
  applyRec_delete_iff.mpr ⟨hn, h⟩

theorem applyRec_retain_pre {X : TextOperation} {pre r u : List Char} {n : Nat}
    (hpre : pre.length = n) (h : applyRec X r = some u) :
    applyRec (.retain n :: X) (pre ++ r) = some (pre ++ u) := by
  refine applyRec_retain_iff.mpr ⟨by simp [List.length_append, ← hpre], u, ?_, ?_⟩
  · rw [List.drop_left' hpre]; exact h
  · rw [List.take_left' hpre]

theorem applyRec_delete_pre {X : TextOperation} {pre r u : List Char} {n : Nat}
    (hpre : pre.length = n) (h : applyRec X r = some u) :
    applyRec (.delete n :: X) (pre ++ r) = some u := by
  refine applyRec_delete_iff.mpr ⟨by simp [List.length_append, ← hpre], ?_⟩
  rw [List.drop_left' hpre]; exact h

theorem take_split (s : List Char) {n m : Nat} (h : n ≤ m) :
    s.take m = s.take n ++ (s.drop n).take (m - n) := by
  conv_lhs => rw [show m = n + (m - n) by omega]
  exact List.take_add s n (m - n)

theorem drop_combine (s : List Char) {n m : Nat} (h : n ≤ m) :
    (s.drop n).drop (m - n) = s.drop m := by
  rw [List.drop_drop]
  congr 1
  omega

theorem applyRec_eq_none_iff (op : TextOperation) (s : List Char) :
    applyRec op s = none ↔ ∃ k, s.length < consumedLen (op.take k) := by
  induction op generalizing s with
  | nil =>
      simp only [applyRec, List.take_nil]
      constructor
      · intro h; exact absurd h (by simp)
      · rintro ⟨k, hk⟩; simp [consumedLen] at hk
  | cons c rest ih =>
    cases c with
    | insert t =>
        simp only [applyRec, Option.map_eq_none']
        rw [ih]
        constructor
        · rintro ⟨k, hk⟩
          exact ⟨k + 1, by simpa [consumedLen] using hk⟩
        · rintro ⟨k, hk⟩
          cases k with
          | zero => simp [consumedLen] at hk
          | succ j => exact ⟨j, by simpa [consumedLen] using hk⟩
    | retain n =>
        simp only [applyRec]
        by_cases h : s.length < n
        · simp only [if_pos h, true_iff]
          exact ⟨1, by simpa [consumedLen] using h⟩
        · simp only [if_neg h, Option.map_eq_none']
          rw [ih]
          simp only [List.length_drop]
          constructor
          · rintro ⟨k, hk⟩
            exact ⟨k + 1, by simp [consumedLen]; omega⟩
          · rintro ⟨k, hk⟩
            cases k with
            | zero => simp [consumedLen] at hk
            | succ j =>
                refine ⟨j, ?_⟩
                simp [consumedLen] at hk
                omega
    | delete n =>
        simp only [applyRec]
        by_cases h : s.length < n
        · simp only [if_pos h, true_iff]
          exact ⟨1, by simpa [consumedLen] using h⟩
        · simp only [if_neg h]
          rw [ih]
          simp only [List.length_drop]
          constructor
          · rintro ⟨k, hk⟩
            exact ⟨k + 1, by simp [consumedLen]; omega⟩
          · rintro ⟨k, hk⟩
            cases k with
            | zero => simp [consumedLen] at hk
            | succ j =>
                refine ⟨j, ?_⟩
                simp [consumedLen] at hk
                omega

theorem applyRec_some_eq (op : TextOperation) (s r : List Char)
    (h : applyRec op s = some r) :
    r = outputNoTail op s ++ s.drop (consumedLen op) := by
  induction op generalizing s r with
  | nil =>
      simp only [applyRec, Option.some_inj] at h
      simp [outputNoTail, consumedLen, ← h]
  | cons c rest ih =>
    cases c with
    | insert t =>
        rw [applyRec_insert_iff] at h
        obtain ⟨r', hr', rfl⟩ := h
        simp [outputNoTail, consumedLen, ih _ _ hr', List.append_assoc]
    | retain n =>
        rw [applyRec_retain_iff] at h
        obtain ⟨hn, r', hr', rfl⟩ := h
        simp [outputNoTail, consumedLen, ih _ _ hr', List.append_assoc,
          List.drop_drop, Nat.add_comm]
    | delete n =>
        rw [applyRec_delete_iff] at h
        obtain ⟨hn, hr⟩ := h
        simp [outputNoTail, consumedLen, ih _ _ hr, List.drop_drop, Nat.add_comm]

/-! ### TP1 convergence of `transformGo` (claim C1)

The two transform calls `transformGo a b left` and `transformGo b a right`
walk the component pair in lockstep; the induction below follows that walk,
case-splitting on the two head components exactly as the loop does. -/

theorem tp1Aux (N : Nat) :
    ∀ (a b : TextOperation) (s t₁ t₂ : List Char),
      a.length + b.length ≤ N →
      applyRec a s = some t₁ → applyRec b s = some t₂ →
      ∃ u, applyRec (transformGo b a .right) t₁ = some u ∧
           applyRec (transformGo a b .left) t₂ = some u := by
  induction N with
  | zero =>
      intro a b s t₁ t₂ hN ha hb
      have hA : a = [] := List.length_eq_zero.mp (by omega)
      have hB : b = [] := List.length_eq_zero.mp (by omega)
      subst hA; subst hB
      simp only [applyRec, Option.some_inj] at ha hb
      subst ha; subst hb
      exact ⟨s, by simp [transformGo, applyRec], by simp [transformGo, applyRec]⟩
  | succ N ih =>
    intro a b s t₁ t₂ hN ha hb
    rcases a with _ | ⟨ca, as⟩
    · -- a = []
      rcases b with _ | ⟨cb, bs⟩
      · -- both empty
        simp only [applyRec, Option.some_inj] at ha hb
        subst ha; subst hb
        exact ⟨s, by simp [transformGo, applyRec], by simp [transformGo, applyRec]⟩
      · simp only [applyRec, Option.some_inj] at ha
        subst ha
        cases cb with
        | insert sb =>
            obtain ⟨t₂', hb', rfl⟩ := applyRec_insert_iff.mp hb
            obtain ⟨u, hu1, hu2⟩ := ih [] bs s s t₂'
              (by simp at hN ⊢; omega) (by simp [applyRec]) hb'
            refine ⟨sb ++ u, ?_, ?_⟩
            · show applyRec (transformGo (.insert sb :: bs) [] .right) s = _
              simp only [transformGo]
              exact applyRec_insert_build hu1
            · show applyRec (transformGo [] (.insert sb :: bs) .left) (sb ++ t₂') = _
              simp only [transformGo]
              exact applyRec_retain_pre rfl hu2
        | retain m =>
            obtain ⟨hm, t₂', hb', rfl⟩ := applyRec_retain_iff.mp hb
            obtain ⟨u, hu1, hu2⟩ := ih [] bs (s.drop m) (s.drop m) t₂'
              (by simp at hN ⊢; omega) (by simp [applyRec]) hb'
            refine ⟨s.take m ++ u, ?_, ?_⟩
            · show applyRec (transformGo (.retain m :: bs) [] .right) s = _
              simp only [transformGo]
              exact applyRec_retain_le hm hu1
            · show applyRec (transformGo [] (.retain m :: bs) .left) (s.take m ++ t₂') = _
              simp only [transformGo]
              exact applyRec_retain_pre (by simp [List.length_take]; omega) hu2
        | delete m =>
            obtain ⟨hm, hb'⟩ := applyRec_delete_iff.mp hb
            obtain ⟨u, hu1, hu2⟩ := ih [] bs (s.drop m) (s.drop m) t₂
              (by simp at hN ⊢; omega) (by simp [applyRec]) hb'
            refine ⟨u, ?_, ?_⟩
            · show applyRec (transformGo (.delete m :: bs) [] .right) s = _
              simp only [transformGo]
              exact applyRec_delete_le hm hu1
            · show applyRec (transformGo [] (.delete m :: bs) .left) t₂ = _
              simp only [transformGo]
              exact hu2
    · cases ca with
      | insert sa =>
          -- a = insert sa :: as, b arbitrary: A's insert is emitted on the left
          -- and retained on the right, regardless of b's head.
          obtain ⟨t₁', ha', rfl⟩ := applyRec_insert_iff.mp ha
          obtain ⟨u, hu1, hu2⟩ := ih as b s t₁' t₂
            (by simp at hN ⊢; omega) ha' hb
          have hR : transformGo b (.insert sa :: as) .right =
              .retain sa.length :: transformGo b as .right := by
            rcases b with _ | ⟨cb, bs⟩
            · simp [transformGo]
            · cases cb <;> simp [transformGo]
          have hL : transformGo (.insert sa :: as) b .left =
              .insert sa :: transformGo as b .left := by
            rcases b with _ | ⟨cb, bs⟩
            · simp [transformGo]
            · cases cb <;> simp [transformGo]
          exact ⟨sa ++ u, by rw [hR]; exact applyRec_retain_pre rfl hu1,
            by rw [hL]; exact applyRec_insert_build hu2⟩
      | retain n =>
          obtain ⟨hn, t₁', ha', rfl⟩ := applyRec_retain_iff.mp ha
          rcases b with _ | ⟨cb, bs⟩
          · -- b = []
            simp only [applyRec, Option.some_inj] at hb
            subst hb
            obtain ⟨u, hu1, hu2⟩ := ih as [] (s.drop n) t₁' (s.drop n)
              (by simp at hN ⊢; omega) ha' (by simp [applyRec])
            refine ⟨s.take n ++ u, ?_, ?_⟩
            · show applyRec (transformGo [] (.retain n :: as) .right) (s.take n ++ t₁') = _
              simp only [transformGo]
              exact applyRec_retain_pre (by simp [List.length_take]; omega) hu1
            · show applyRec (transformGo (.retain n :: as) [] .left) s = _
              simp only [transformGo]
              exact applyRec_retain_le hn hu2
          · cases cb with
            | insert sb =>
                obtain ⟨t₂', hb', rfl⟩ := applyRec_insert_iff.mp hb
                obtain ⟨u, hu1, hu2⟩ := ih (.retain n :: as) bs s (s.take n ++ t₁') t₂'
                  (by simp at hN ⊢; omega) (applyRec_retain_le hn ha') hb'
                refine ⟨sb ++ u, ?_, ?_⟩
                · show applyRec (transformGo (.insert sb :: bs) (.retain n :: as) .right)
                      (s.take n ++ t₁') = _
                  simp only [transformGo]
                  exact applyRec_insert_build hu1
                · show applyRec (transformGo (.retain n :: as) (.insert sb :: bs) .left)
                      (sb ++ t₂') = _
                  simp only [transformGo]
                  exact applyRec_retain_pre rfl hu2
            | retain m =>
                obtain ⟨hm, t₂', hb', rfl⟩ := applyRec_retain_iff.mp hb
                rcases Nat.lt_trichotomy n m with hlt | heq | hgt
                · -- n < m
                  have hb2 : applyRec (.retain (m - n) :: bs) (s.drop n) =
                      some ((s.drop n).take (m - n) ++ t₂') :=
                    applyRec_retain_le (by simp [List.length_drop]; omega)
                      (by rw [drop_combine s (le_of_lt hlt)]; exact hb')
                  obtain ⟨u, hu1, hu2⟩ := ih as (.retain (m - n) :: bs) (s.drop n)
                    t₁' ((s.drop n).take (m - n) ++ t₂')
                    (by simp at hN ⊢; omega) ha' hb2
                  refine ⟨s.take n ++ u, ?_, ?_⟩
                  · show applyRec (transformGo (.retain m :: bs) (.retain n :: as) .right)
                        (s.take n ++ t₁') = _
                    simp only [transformGo]
                    rw [if_neg (by omega), if_pos hlt]
                    exact applyRec_retain_pre (by simp [List.length_take]; omega) hu1
                  · show applyRec (transformGo (.retain n :: as) (.retain m :: bs) .left)
                        (s.take m ++ t₂') = _
                    simp only [transformGo]
                    rw [if_pos hlt]
                    rw [take_split s (le_of_lt hlt), List.append_assoc]
                    exact applyRec_retain_pre (by simp [List.length_take]; omega) hu2
                · -- n = m
                  subst heq
                  obtain ⟨u, hu1, hu2⟩ := ih as bs (s.drop n) t₁' t₂'
                    (by simp at hN ⊢; omega) ha' hb'
                  refine ⟨s.take n ++ u, ?_, ?_⟩
                  · show applyRec (transformGo (.retain n :: bs) (.retain n :: as) .right)
                        (s.take n ++ t₁') = _
                    simp only [transformGo]
                    rw [if_neg (by omega), if_neg (by omega)]
                    exact applyRec_retain_pre (by simp [List.length_take]; omega) hu1
                  · show applyRec (transformGo (.retain n :: as) (.retain n :: bs) .left)
                        (s.take n ++ t₂') = _
                    simp only [transformGo]
                    rw [if_neg (by omega), if_neg (by omega)]
                    exact applyRec_retain_pre (by simp [List.length_take]; omega) hu2
                · -- m < n
                  have ha2 : applyRec (.retain (n - m) :: as) (s.drop m) =
                      some ((s.drop m).take (n - m) ++ t₁') :=
                    applyRec_retain_le (by simp [List.length_drop]; omega)
                      (by rw [drop_combine s (le_of_lt hgt)]; exact ha')
                  obtain ⟨u, hu1, hu2⟩ := ih (.retain (n - m) :: as) bs (s.drop m)
                    ((s.drop m).take (n - m) ++ t₁') t₂'
                    (by simp at hN ⊢; omega) ha2 hb'
                  refine ⟨s.take m ++ u, ?_, ?_⟩
                  · show applyRec (transformGo (.retain m :: bs) (.retain n :: as) .right)
                        (s.take n ++ t₁') = _
                    simp only [transformGo]
                    rw [if_pos hgt]
                    rw [take_split s (le_of_lt hgt), List.append_assoc]
                    exact applyRec_retain_pre (by simp [List.length_take]; omega) hu1
                  · show applyRec (transformGo (.retain n :: as) (.retain m :: bs) .left)
                        (s.take m ++ t₂') = _
                    simp only [transformGo]
                    rw [if_neg (by omega), if_pos hgt]
                    exact applyRec_retain_pre (by simp [List.length_take]; omega) hu2
            | delete m =>
                obtain ⟨hm, hb'⟩ := applyRec_delete_iff.mp hb
                rcases Nat.lt_trichotomy n m with hlt | heq | hgt
                · -- n < m : A's retain eaten; right emits delete n
                  have hb2 : applyRec (.delete (m - n) :: bs) (s.drop n) = some t₂ :=
                    applyRec_delete_le (by simp [List.length_drop]; omega)
                      (by rw [drop_combine s (le_of_lt hlt)]; exact hb')
                  obtain ⟨u, hu1, hu2⟩ := ih as (.delete (m - n) :: bs) (s.drop n) t₁' t₂
                    (by simp at hN ⊢; omega) ha' hb2
                  refine ⟨u, ?_, ?_⟩
                  · show applyRec (transformGo (.delete m :: bs) (.retain n :: as) .right)
                        (s.take n ++ t₁') = _
                    simp only [transformGo]
                    rw [if_neg (by omega), if_pos hlt]
                    exact applyRec_delete_pre (by simp [List.length_take]; omega) hu1
                  · show applyRec (transformGo (.retain n :: as) (.delete m :: bs) .left) t₂ = _
                    simp only [transformGo]
                    rw [if_pos hlt]
                    exact hu2
                · -- n = m
                  subst heq
                  obtain ⟨u, hu1, hu2⟩ := ih as bs (s.drop n) t₁' t₂
                    (by simp at hN ⊢; omega) ha' hb'
                  refine ⟨u, ?_, ?_⟩
                  · show applyRec (transformGo (.delete n :: bs) (.retain n :: as) .right)
                        (s.take n ++ t₁') = _
                    simp only [transformGo]
                    rw [if_neg (by omega), if_neg (by omega)]
                    exact applyRec_delete_pre (by simp [List.length_take]; omega) hu1
                  · show applyRec (transformGo (.retain n :: as) (.delete n :: bs) .left) t₂ = _
                    simp only [transformGo]
                    rw [if_neg (by omega), if_neg (by omega)]
                    exact hu2
                · -- m < n
                  have ha2 : applyRec (.retain (n - m) :: as) (s.drop m) =
                      some ((s.drop m).take (n - m) ++ t₁') :=
                    applyRec_retain_le (by simp [List.length_drop]; omega)
                      (by rw [drop_combine s (le_of_lt hgt)]; exact ha')
                  obtain ⟨u, hu1, hu2⟩ := ih (.retain (n - m) :: as) bs (s.drop m)
                    ((s.drop m).take (n - m) ++ t₁') t₂
                    (by simp at hN ⊢; omega) ha2 hb'
                  refine ⟨u, ?_, ?_⟩
                  · show applyRec (transformGo (.delete m :: bs) (.retain n :: as) .right)
                        (s.take n ++ t₁') = _
                    simp only [transformGo]
                    rw [if_pos hgt]
                    rw [take_split s (le_of_lt hgt), List.append_assoc]
                    exact applyRec_delete_pre (by simp [List.length_take]; omega) hu1
                  · show applyRec (transformGo (.retain n :: as) (.delete m :: bs) .left) t₂ = _
                    simp only [transformGo]
                    rw [if_neg (by omega), if_pos hgt]
                    exact hu2
      | delete n =>
          obtain ⟨hn, ha'⟩ := applyRec_delete_iff.mp ha
          rcases b with _ | ⟨cb, bs⟩
          · -- b = []
            simp only [applyRec, Option.some_inj] at hb
            subst hb
            obtain ⟨u, hu1, hu2⟩ := ih as [] (s.drop n) t₁ (s.drop n)
              (by simp at hN ⊢; omega) ha' (by simp [applyRec])
            refine ⟨u, ?_, ?_⟩
            · show applyRec (transformGo [] (.delete n :: as) .right) t₁ = _
              simp only [transformGo]
              exact hu1
            · show applyRec (transformGo (.delete n :: as) [] .left) s = _
              simp only [transformGo]
              exact applyRec_delete_le hn hu2
          · cases cb with
            | insert sb =>
                obtain ⟨t₂', hb', rfl⟩ := applyRec_insert_iff.mp hb
                obtain ⟨u, hu1, hu2⟩ := ih (.delete n :: as) bs s t₁ t₂'
                  (by simp at hN ⊢; omega) (applyRec_delete_le hn ha') hb'
                refine ⟨sb ++ u, ?_, ?_⟩
                · show applyRec (transformGo (.insert sb :: bs) (.delete n :: as) .right) t₁ = _
                  simp only [transformGo]
                  exact applyRec_insert_build hu1
                · show applyRec (transformGo (.delete n :: as) (.insert sb :: bs) .left)
                      (sb ++ t₂') = _
                  simp only [transformGo]
                  exact applyRec_retain_pre rfl hu2
            | retain m =>
                obtain ⟨hm, t₂', hb', rfl⟩ := applyRec_retain_iff.mp hb
                rcases Nat.lt_trichotomy n m with hlt | heq | hgt
                · -- n < m : left emits delete n; right emits nothing for this chunk
                  have hb2 : applyRec (.retain (m - n) :: bs) (s.drop n) =
                      some ((s.drop n).take (m - n) ++ t₂') :=
                    applyRec_retain_le (by simp [List.length_drop]; omega)
                      (by rw [drop_combine s (le_of_lt hlt)]; exact hb')
                  obtain ⟨u, hu1, hu2⟩ := ih as (.retain (m - n) :: bs) (s.drop n)
                    t₁ ((s.drop n).take (m - n) ++ t₂')
                    (by simp at hN ⊢; omega) ha' hb2
                  refine ⟨u, ?_, ?_⟩
                  · show applyRec (transformGo (.retain m :: bs) (.delete n :: as) .right) t₁ = _
                    simp only [transformGo]
                    rw [if_neg (by omega), if_pos hlt]
                    exact hu1
                  · show applyRec (transformGo (.delete n :: as) (.retain m :: bs) .left)
                        (s.take m ++ t₂') = _
                    simp only [transformGo]
                    rw [if_pos hlt]
                    rw [take_split s (le_of_lt hlt), List.append_assoc]
                    exact applyRec_delete_pre (by simp [List.length_take]; omega) hu2
                · -- n = m
                  subst heq
                  obtain ⟨u, hu1, hu2⟩ := ih as bs (s.drop n) t₁ t₂'
                    (by simp at hN ⊢; omega) ha' hb'
                  refine ⟨u, ?_, ?_⟩
                  · show applyRec (transformGo (.retain n :: bs) (.delete n :: as) .right) t₁ = _
                    simp only [transformGo]
                    rw [if_neg (by omega), if_neg (by omega)]
                    exact hu1
                  · show applyRec (transformGo (.delete n :: as) (.retain n :: bs) .left)
                        (s.take n ++ t₂') = _
                    simp only [transformGo]
                    rw [if_neg (by omega), if_neg (by omega)]
                    exact applyRec_delete_pre (by simp [List.length_take]; omega) hu2
                · -- m < n
                  have ha2 : applyRec (.delete (n - m) :: as) (s.drop m) = some t₁ :=
                    applyRec_delete_le (by simp [List.length_drop]; omega)
                      (by rw [drop_combine s (le_of_lt hgt)]; exact ha')
                  obtain ⟨u, hu1, hu2⟩ := ih (.delete (n - m) :: as) bs (s.drop m) t₁ t₂'
                    (by simp at hN ⊢; omega) ha2 hb'
                  refine ⟨u, ?_, ?_⟩
                  · show applyRec (transformGo (.retain m :: bs) (.delete n :: as) .right) t₁ = _
                    simp only [transformGo]
                    rw [if_pos hgt]
                    exact hu1
                  · show applyRec (transformGo (.delete n :: as) (.retain m :: bs) .left)
                        (s.take m ++ t₂') = _
                    simp only [transformGo]
                    rw [if_neg (by omega), if_pos hgt]
                    exact applyRec_delete_pre (by simp [List.length_take]; omega) hu2
            | delete m =>
                obtain ⟨hm, hb'⟩ := applyRec_delete_iff.mp hb
                rcases Nat.lt_trichotomy n m with hlt | heq | hgt
                · -- n < m
                  have hb2 : applyRec (.delete (m - n) :: bs) (s.drop n) = some t₂ :=
                    applyRec_delete_le (by simp [List.length_drop]; omega)
                      (by rw [drop_combine s (le_of_lt hlt)]; exact hb')
                  obtain ⟨u, hu1, hu2⟩ := ih as (.delete (m - n) :: bs) (s.drop n) t₁ t₂
                    (by simp at hN ⊢; omega) ha' hb2
                  refine ⟨u, ?_, ?_⟩
                  · show applyRec (transformGo (.delete m :: bs) (.delete n :: as) .right) t₁ = _
                    simp only [transformGo]
                    rw [if_neg (by omega), if_pos hlt]
                    exact hu1
                  · show applyRec (transformGo (.delete n :: as) (.delete m :: bs) .left) t₂ = _
                    simp only [transformGo]
                    rw [if_pos hlt]
                    exact hu2
                · -- n = m
                  subst heq
                  obtain ⟨u, hu1, hu2⟩ := ih as bs (s.drop n) t₁ t₂
                    (by simp at hN ⊢; omega) ha' hb'
                  refine ⟨u, ?_, ?_⟩
                  · show applyRec (transformGo (.delete n :: bs) (.delete n :: as) .right) t₁ = _
                    simp only [transformGo]
                    rw [if_neg (by omega), if_neg (by omega)]
                    exact hu1
                  · show applyRec (transformGo (.delete n :: as) (.delete n :: bs) .left) t₂ = _
                    simp only [transformGo]
                    rw [if_neg (by omega), if_neg (by omega)]
                    exact hu2
                · -- m < n
                  have ha2 : applyRec (.delete (n - m) :: as) (s.drop m) = some t₁ :=
                    applyRec_delete_le (by simp [List.length_drop]; omega)
                      (by rw [drop_combine s (le_of_lt hgt)]; exact ha')
                  obtain ⟨u, hu1, hu2⟩ := ih (.delete (n - m) :: as) bs (s.drop m) t₁ t₂
                    (by simp at hN ⊢; omega) ha2 hb'
                  refine ⟨u, ?_, ?_⟩
                  · show applyRec (transformGo (.delete m :: bs) (.delete n :: as) .right) t₁ = _
                    simp only [transformGo]
                    rw [if_pos hgt]
                    exact hu1
                  · show applyRec (transformGo (.delete n :: as) (.delete m :: bs) .left) t₂ = _
                    simp only [transformGo]
                    rw [if_neg (by omega), if_pos hgt]
                    exact hu2

/-! ### Compose correctness on apply (claim C2) -/

theorem take_append_len {X r : List Char} {m k : Nat} (hX : X.length = k) (h : k ≤ m) :
    (X ++ r).take m = X ++ r.take (m - k) := by
  subst hX
  rw [List.take_append_eq_append_take, List.take_of_length_le h]

theorem drop_append_len {X r : List Char} {m k : Nat} (hX : X.length = k) (h : k ≤ m) :
    (X ++ r).drop m = r.drop (m - k) := by
  subst hX
  rw [List.drop_append_eq_append_drop, List.drop_of_length_le h, List.nil_append]

theorem take_append_lt {X r : List Char} {m k : Nat} (hX : X.length = k) (h : m ≤ k) :
    (X ++ r).take m = X.take m := by
  subst hX
  rw [List.take_append_eq_append_take, show m - X.length = 0 by omega]
  simp

theorem drop_append_lt {X r : List Char} {m k : Nat} (hX : X.length = k) (h : m ≤ k) :
    (X ++ r).drop m = X.drop m ++ r := by
  subst hX
  rw [List.drop_append_eq_append_drop, show m - X.length = 0 by omega]
  simp

theorem composeAux (N : Nat) :
    ∀ (a b : TextOperation) (s t u : List Char),
      a.length + b.length ≤ N →
      applyRec a s = some t → applyRec b t = some u →
      applyRec (composeGo a b) s = some u := by
  induction N with
  | zero =>
      intro a b s t u hN ha hb
      have hA : a = [] := List.length_eq_zero.mp (by omega)
      have hB : b = [] := List.length_eq_zero.mp (by omega)
      subst hA; subst hB
      simp only [applyRec, Option.some_inj] at ha hb
      subst ha; subst hb
      simp [composeGo, applyRec]
  | succ N ih =>
    intro a b s t u hN ha hb
    rcases a with _ | ⟨ca, as⟩
    · -- a = []
      simp only [applyRec, Option.some_inj] at ha
      subst ha
      rcases b with _ | ⟨cb, bs⟩
      · simp only [applyRec, Option.some_inj] at hb
        subst hb
        simp [composeGo, applyRec]
      · cases cb with
        | insert tb =>
            obtain ⟨u', hb', rfl⟩ := applyRec_insert_iff.mp hb
            have hIH := ih [] bs s s u' (by simp at hN ⊢; omega) (by simp [applyRec]) hb'
            show applyRec (composeGo [] (.insert tb :: bs)) s = _
            simp only [composeGo]
            exact applyRec_insert_build hIH
        | retain m =>
            obtain ⟨hm, u', hb', rfl⟩ := applyRec_retain_iff.mp hb
            have hIH := ih [] bs (s.drop m) (s.drop m) u'
              (by simp at hN ⊢; omega) (by simp [applyRec]) hb'
            show applyRec (composeGo [] (.retain m :: bs)) s = _
            simp only [composeGo]
            exact applyRec_retain_le hm hIH
        | delete m =>
            obtain ⟨hm, hb'⟩ := applyRec_delete_iff.mp hb
            have hIH := ih [] bs (s.drop m) (s.drop m) u
              (by simp at hN ⊢; omega) (by simp [applyRec]) hb'
            show applyRec (composeGo [] (.delete m :: bs)) s = _
            simp only [composeGo]
            exact applyRec_delete_le hm hIH
    · cases ca with
      | delete n =>
          -- A deletes first, regardless of b's head
          obtain ⟨hn, ha'⟩ := applyRec_delete_iff.mp ha
          have hEq : composeGo (.delete n :: as) b = .delete n :: composeGo as b := by
            rcases b with _ | ⟨cb, bs⟩
            · simp [composeGo]
            · cases cb <;> simp [composeGo]
          rw [hEq]
          exact applyRec_delete_le hn
            (ih as b (s.drop n) t u (by simp at hN ⊢; omega) ha' hb)
      | retain n =>
          obtain ⟨hn, t₁', ha', rfl⟩ := applyRec_retain_iff.mp ha
          have hlen : (s.take n).length = n := by
            simp [List.length_take]
            omega
          rcases b with _ | ⟨cb, bs⟩
          · -- b = []
            simp only [applyRec, Option.some_inj] at hb
            subst hb
            have hIH := ih as [] (s.drop n) t₁' t₁'
              (by simp at hN ⊢; omega) ha' (by simp [applyRec])
            show applyRec (composeGo (.retain n :: as) []) s = _
            simp only [composeGo]
            exact applyRec_retain_le hn hIH
          · cases cb with
            | insert tb =>
                obtain ⟨u', hb', rfl⟩ := applyRec_insert_iff.mp hb
                have hIH := ih (.retain n :: as) bs s (s.take n ++ t₁') u'
                  (by simp at hN ⊢; omega) (applyRec_retain_le hn ha') hb'
                show applyRec (composeGo (.retain n :: as) (.insert tb :: bs)) s = _
                simp only [composeGo]
                exact applyRec_insert_build hIH
            | retain m =>
                obtain ⟨hm, u', hb', rfl⟩ := applyRec_retain_iff.mp hb
                have hmlen : m ≤ n + t₁'.length := by
                  simpa [List.length_append, hlen] using hm
                rcases Nat.lt_trichotomy n m with hlt | heq | hgt
                · -- n < m
                  have h1 : (s.take n ++ t₁').take m = s.take n ++ t₁'.take (m - n) :=
                    take_append_len hlen (le_of_lt hlt)
                  have h2 : (s.take n ++ t₁').drop m = t₁'.drop (m - n) :=
                    drop_append_len hlen (le_of_lt hlt)
                  have hb2 : applyRec (.retain (m - n) :: bs) t₁' =
                      some (t₁'.take (m - n) ++ u') :=
                    applyRec_retain_le (by omega) (by rw [← h2]; exact hb')
                  have hIH := ih as (.retain (m - n) :: bs) (s.drop n) t₁'
                    (t₁'.take (m - n) ++ u')
                    (by simp at hN ⊢; omega) ha' hb2
                  show applyRec (composeGo (.retain n :: as) (.retain m :: bs)) s = _
                  simp only [composeGo]
                  rw [if_pos hlt, h1, List.append_assoc]
                  exact applyRec_retain_le hn hIH
                · -- n = m
                  subst heq
                  have h1 : (s.take n ++ t₁').take n = s.take n := List.take_left' hlen
                  have h2 : (s.take n ++ t₁').drop n = t₁' := List.drop_left' hlen
                  have hIH := ih as bs (s.drop n) t₁' u'
                    (by simp at hN ⊢; omega) ha' (by rw [← h2]; exact hb')
                  show applyRec (composeGo (.retain n :: as) (.retain n :: bs)) s = _
                  simp only [composeGo]
                  rw [if_neg (by omega), if_neg (by omega), h1]
                  exact applyRec_retain_le hn hIH
                · -- m < n
                  have h1 : (s.take n ++ t₁').take m = s.take m := by
                    rw [take_append_lt hlen (le_of_lt hgt), List.take_take,
                      show m ⊓ n = m by omega]
                  have h2 : (s.take n ++ t₁').drop m = (s.drop m).take (n - m) ++ t₁' := by
                    rw [drop_append_lt hlen (le_of_lt hgt), List.drop_take]
                  have ha2 : applyRec (.retain (n - m) :: as) (s.drop m) =
                      some ((s.drop m).take (n - m) ++ t₁') :=
                    applyRec_retain_le (by simp [List.length_drop]; omega)
                      (by rw [drop_combine s (le_of_lt hgt)]; exact ha')
                  have hIH := ih (.retain (n - m) :: as) bs (s.drop m)
                    ((s.drop m).take (n - m) ++ t₁') u'
                    (by simp at hN ⊢; omega) ha2 (by rw [← h2]; exact hb')
                  show applyRec (composeGo (.retain n :: as) (.retain m :: bs)) s = _
                  simp only [composeGo]
                  rw [if_neg (by omega), if_pos hgt, h1]
                  exact applyRec_retain_le (by omega) hIH
            | delete m =>
                obtain ⟨hm, hb'⟩ := applyRec_delete_iff.mp hb
                have hmlen : m ≤ n + t₁'.length := by
                  simpa [List.length_append, hlen] using hm
                rcases Nat.lt_trichotomy n m with hlt | heq | hgt
                · -- n < m
                  have h2 : (s.take n ++ t₁').drop m = t₁'.drop (m - n) :=
                    drop_append_len hlen (le_of_lt hlt)
                  have hb2 : applyRec (.delete (m - n) :: bs) t₁' = some u :=
                    applyRec_delete_le (by omega) (by rw [← h2]; exact hb')
                  have hIH := ih as (.delete (m - n) :: bs) (s.drop n) t₁' u
                    (by simp at hN ⊢; omega) ha' hb2
                  show applyRec (composeGo (.retain n :: as) (.delete m :: bs)) s = _
                  simp only [composeGo]
                  rw [if_pos hlt]
                  exact applyRec_delete_le hn hIH
                · -- n = m
                  subst heq
                  have h2 : (s.take n ++ t₁').drop n = t₁' := List.drop_left' hlen
                  have hIH := ih as bs (s.drop n) t₁' u
                    (by simp at hN ⊢; omega) ha' (by rw [← h2]; exact hb')
                  show applyRec (composeGo (.retain n :: as) (.delete n :: bs)) s = _
                  simp only [composeGo]
                  rw [if_neg (by omega), if_neg (by omega)]
                  exact applyRec_delete_le hn hIH
                · -- m < n
                  have h2 : (s.take n ++ t₁').drop m = (s.drop m).take (n - m) ++ t₁' := by
                    rw [drop_append_lt hlen (le_of_lt hgt), List.drop_take]
                  have ha2 : applyRec (.retain (n - m) :: as) (s.drop m) =
                      some ((s.drop m).take (n - m) ++ t₁') :=
                    applyRec_retain_le (by simp [List.length_drop]; omega)
                      (by rw [drop_combine s (le_of_lt hgt)]; exact ha')
                  have hIH := ih (.retain (n - m) :: as) bs (s.drop m)
                    ((s.drop m).take (n - m) ++ t₁') u
                    (by simp at hN ⊢; omega) ha2 (by rw [← h2]; exact hb')
                  show applyRec (composeGo (.retain n :: as) (.delete m :: bs)) s = _
                  simp only [composeGo]
                  rw [if_neg (by omega), if_pos hgt]
                  exact applyRec_delete_le (by omega) hIH
      | insert ta =>
          obtain ⟨t₁', ha', rfl⟩ := applyRec_insert_iff.mp ha
          rcases b with _ | ⟨cb, bs⟩
          · -- b = []
            simp only [applyRec, Option.some_inj] at hb
            subst hb
            have hIH := ih as [] s t₁' t₁'
              (by simp at hN ⊢; omega) ha' (by simp [applyRec])
            show applyRec (composeGo (.insert ta :: as) []) s = _
            simp only [composeGo]
            exact applyRec_insert_build hIH
          · cases cb with
            | insert tb =>
                obtain ⟨u', hb', rfl⟩ := applyRec_insert_iff.mp hb
                have hIH := ih (.insert ta :: as) bs s (ta ++ t₁') u'
                  (by simp at hN ⊢; omega) (applyRec_insert_build ha') hb'
                show applyRec (composeGo (.insert ta :: as) (.insert tb :: bs)) s = _
                simp only [composeGo]
                exact applyRec_insert_build hIH
            | retain m =>
                obtain ⟨hm, u', hb', rfl⟩ := applyRec_retain_iff.mp hb
                have hmlen : m ≤ ta.length + t₁'.length := by
                  simpa [List.length_append] using hm
                rcases Nat.lt_trichotomy ta.length m with hlt | heq | hgt
                · -- |ta| < m
                  have h1 : (ta ++ t₁').take m = ta ++ t₁'.take (m - ta.length) :=
                    take_append_len rfl (le_of_lt hlt)
                  have h2 : (ta ++ t₁').drop m = t₁'.drop (m - ta.length) :=
                    drop_append_len rfl (le_of_lt hlt)
                  have hb2 : applyRec (.retain (m - ta.length) :: bs) t₁' =
                      some (t₁'.take (m - ta.length) ++ u') :=
                    applyRec_retain_le (by omega) (by rw [← h2]; exact hb')
                  have hIH := ih as (.retain (m - ta.length) :: bs) s t₁'
                    (t₁'.take (m - ta.length) ++ u')
                    (by simp at hN ⊢; omega) ha' hb2
                  show applyRec (composeGo (.insert ta :: as) (.retain m :: bs)) s = _
                  simp only [composeGo]
                  rw [if_pos hlt, h1, List.append_assoc]
                  exact applyRec_insert_build hIH
                · -- |ta| = m
                  have h1 : (ta ++ t₁').take m = ta := List.take_left' heq
                  have h2 : (ta ++ t₁').drop m = t₁' := List.drop_left' heq
                  have hIH := ih as bs s t₁' u'
                    (by simp at hN ⊢; omega) ha' (by rw [← h2]; exact hb')
                  show applyRec (composeGo (.insert ta :: as) (.retain m :: bs)) s = _
                  simp only [composeGo]
                  rw [if_neg (by omega), if_neg (by omega), h1]
                  exact applyRec_insert_build hIH
                · -- m < |ta|
                  have h1 : (ta ++ t₁').take m = ta.take m :=
                    take_append_lt rfl (le_of_lt hgt)
                  have h2 : (ta ++ t₁').drop m = ta.drop m ++ t₁' :=
                    drop_append_lt rfl (le_of_lt hgt)
                  have ha2 : applyRec (.insert (ta.drop m) :: as) s =
                      some (ta.drop m ++ t₁') := applyRec_insert_build ha'
                  have hIH := ih (.insert (ta.drop m) :: as) bs s (ta.drop m ++ t₁') u'
                    (by simp at hN ⊢; omega) ha2 (by rw [← h2]; exact hb')
                  show applyRec (composeGo (.insert ta :: as) (.retain m :: bs)) s = _
                  simp only [composeGo]
                  rw [if_neg (by omega), if_pos hgt, h1]
                  exact applyRec_insert_build hIH
            | delete m =>
                obtain ⟨hm, hb'⟩ := applyRec_delete_iff.mp hb
                have hmlen : m ≤ ta.length + t₁'.length := by
                  simpa [List.length_append] using hm
                rcases Nat.lt_trichotomy ta.length m with hlt | heq | hgt
                · -- |ta| < m : the insert is cancelled
                  have h2 : (ta ++ t₁').drop m = t₁'.drop (m - ta.length) :=
                    drop_append_len rfl (le_of_lt hlt)
                  have hb2 : applyRec (.delete (m - ta.length) :: bs) t₁' = some u :=
                    applyRec_delete_le (by omega) (by rw [← h2]; exact hb')
                  have hIH := ih as (.delete (m - ta.length) :: bs) s t₁' u
                    (by simp at hN ⊢; omega) ha' hb2
                  show applyRec (composeGo (.insert ta :: as) (.delete m :: bs)) s = _
                  simp only [composeGo]
                  rw [if_pos hlt]
                  exact hIH
                · -- |ta| = m
                  have h2 : (ta ++ t₁').drop m = t₁' := List.drop_left' heq
                  have hIH := ih as bs s t₁' u
                    (by simp at hN ⊢; omega) ha' (by rw [← h2]; exact hb')
                  show applyRec (composeGo (.insert ta :: as) (.delete m :: bs)) s = _
                  simp only [composeGo]
                  rw [if_neg (by omega), if_neg (by omega)]
                  exact hIH
                · -- m < |ta|
                  have h2 : (ta ++ t₁').drop m = ta.drop m ++ t₁' :=
                    drop_append_lt rfl (le_of_lt hgt)
                  have ha2 : applyRec (.insert (ta.drop m) :: as) s =
                      some (ta.drop m ++ t₁') := applyRec_insert_build ha'
                  have hIH := ih (.insert (ta.drop m) :: as) bs s (ta.drop m ++ t₁') u
                    (by simp at hN ⊢; omega) ha2 (by rw [← h2]; exact hb')
                  show applyRec (composeGo (.insert ta :: as) (.delete m :: bs)) s = _
                  simp only [composeGo]
                  rw [if_neg (by omega), if_pos hgt]
                  exact hIH

/-! ### Association-list map laws -/

theorem mapGet_mapSet_self {α : Type} (m : List (String × α)) (k : String) (v : α) :
    mapGet (mapSet m k v) k = some v := by
  simp [mapGet, mapSet, List.find?]

theorem mapSet_mapSet {α : Type} (m : List (String × α)) (k : String) (v v2 : α) :
    mapSet (mapSet m k v) k v2 = mapSet m k v2 := by
  simp only [mapSet, List.filter_cons]
  have : (k != k) = false := by simp
  rw [this]
  simp [List.filter_filter]

/-- C10: `MemoryBackend.createDocument` never fails (it is a total function):
for every prior backend state, including one already holding a document under
`docId`, it stores the fresh record `{type, v := 0, data := initialSnapshot}`
and resets that document's operation log to empty, discarding every
previously committed operation. -/
theorem createDocument_resets {σ ω : Type} (b : MemoryBackend σ ω) (docId : String)
    (ty : String) (snap : σ) :
    mapGet (b.createDocument docId ty snap).documents docId = some ⟨ty, 0, snap⟩ ∧
    mapGet (b.createDocument docId ty snap).history docId = some [] := by
  constructor <;> simp [MemoryBackend.createDocument, mapGet_mapSet_self]

/-- C4: `MemoryBackend.saveOperation` on an existing document fails with the
concurrency error unless the current revision satisfies
`doc.v + 1 = newRevision` (i.e. `v = newRevision - 1`); on success it leaves
a state whose record is the old one with `v := newRevision` (type and data
unchanged) and whose log is the old log with `op` appended. An error returns
no new state: the throw precedes every mutation, so the commit is atomic. -/
theorem saveOperation_atomic {σ ω : Type} (b : MemoryBackend σ ω) (docId : String)
    (op : ω) (newRevision : Nat) (doc : DocumentRecord σ)
    (hdoc : mapGet b.documents docId = some doc) :
    (doc.v + 1 ≠ newRevision →
      b.saveOperation docId op newRevision = .error .concurrencyConflict) ∧
    (doc.v + 1 = newRevision →
      ∃ b2, b.saveOperation docId op newRevision = .ok b2 ∧
        mapGet b2.documents docId = some { doc with v := newRevision } ∧
        mapGet b2.history docId = (mapGet b.history docId).map (fun ops => ops ++ [op])) := by
  constructor
  · intro hne
    simp [MemoryBackend.saveOperation, hdoc, hne]
  · intro heq
    have hsave : b.saveOperation docId op newRevision = .ok { b with
        documents := mapSet b.documents docId { doc with v := newRevision },
        history := match mapGet b.history docId with
          | some ops => mapSet b.history docId (ops ++ [op])
          | none => b.history } := by
      simp [MemoryBackend.saveOperation, hdoc, heq]
    refine ⟨_, hsave, ?_, ?_⟩
    · simp [mapGet_mapSet_self]
    · cases hh : mapGet b.history docId with
      | none => simp [hh]
      | some ops => simp [hh, mapGet_mapSet_self]

theorem saveOperation_atomic_witness :
    ((⟨[("doc1", ⟨"text", 1, ([] : List Char)⟩)], [("doc1", ([] : List TextOperation))]⟩ :
        MemoryBackend (List Char) TextOperation).saveOperation
      "doc1" [.insert ['x']] 3 = .error .concurrencyConflict) ∧
    (∃ b2, (⟨[("doc1", ⟨"text", 1, ([] : List Char)⟩)], [("doc1", ([] : List TextOperation))]⟩ :
        MemoryBackend (List Char) TextOperation).saveOperation
      "doc1" [.insert ['x']] 2 = .ok b2 ∧
      mapGet b2.documents "doc1" = some ⟨"text", 2, []⟩ ∧
      mapGet b2.history "doc1" =
        (mapGet ([("doc1", ([] : List TextOperation))]) "doc1").map (fun ops => ops ++ [[.insert ['x']]])) := by
  constructor
  · exact (saveOperation_atomic
      (⟨[("doc1", ⟨"text", 1, ([] : List Char)⟩)], [("doc1", ([] : List TextOperation))]⟩ :
        MemoryBackend (List Char) TextOperation)
      "doc1" [.insert ['x']] 3 ⟨"text", 1, []⟩ rfl).1 (by decide)
  · exact (saveOperation_atomic
      (⟨[("doc1", ⟨"text", 1, ([] : List Char)⟩)], [("doc1", ([] : List TextOperation))]⟩ :
        MemoryBackend (List Char) TextOperation)
      "doc1" [.insert ['x']] 2 ⟨"text", 1, []⟩ rfl).2 rfl

/-- C6: `Server.submitOperation` on a known document fails with `typeUnknown`
when the record's type name is not registered, and with `revisionFromFuture`
when the client revision exceeds the record's revision. Both throws happen
before `saveOperation`, so neither the record nor the history changes (an
`Except.error` carries no new state). -/
theorem submitOperation_validation {σ ω : Type} (s : Server σ ω) (docId : String)
    (op : ω) (revision : Nat) (record : DocumentRecord σ)
    (hrec : mapGet s.backend.documents docId = some record) :
    (mapGet s.types record.type = none →
      s.submitOperation docId op revision = .error .typeUnknown) ∧
    (∀ ty, mapGet s.types record.type = some ty → record.v < revision →
      s.submitOperation docId op revision = .error .revisionFromFuture) := by
  have hgr : s.backend.getRecord docId = .ok record := by
    rw [MemoryBackend.getRecord, hrec]
  constructor
  · intro hnone
    simp [Server.submitOperation, hgr, hnone]
  · intro ty hty hfut
    simp [Server.submitOperation, hgr, hty, hfut]



theorem submitOperation_validation_witness :
    ((⟨[], ⟨[("doc1", ⟨"text", 0, ([] : List Char)⟩)], [("doc1", [])]⟩⟩ :
        Server (List Char) TextOperation).submitOperation "doc1" [] 0 =
      .error .typeUnknown) ∧
    ((⟨[("text", textOTType)], ⟨[("doc1", ⟨"text", 0, ([] : List Char)⟩)], [("doc1", [])]⟩⟩ :
        Server (List Char) TextOperation).submitOperation "doc1" [] 1 =
      .error .revisionFromFuture) := by
  constructor
  · exact (submitOperation_validation
      (⟨[], ⟨[("doc1", ⟨"text", 0, ([] : List Char)⟩)], [("doc1", [])]⟩⟩ :
        Server (List Char) TextOperation) "doc1" [] 0 ⟨"text", 0, []⟩ rfl).1 rfl
  · exact (submitOperation_validation
      (⟨[("text", textOTType)], ⟨[("doc1", ⟨"text", 0, ([] : List Char)⟩)], [("doc1", [])]⟩⟩ :
        Server (List Char) TextOperation) "doc1" [] 1 ⟨"text", 0, []⟩ rfl).2
      textOTType rfl (by decide)

/-- C9 counterexample: registering a different type (same name `"text"`,
different `create`) over an already-registered name does NOT fail with a
TypeConflict — `registerType` is total and silently replaces the stored
type. -/
theorem registerType_counterexample :
    textOTTypeAlt ≠ textOTType ∧
    textOTTypeAlt.name = textOTType.name ∧
    (Server.registerType
        (Server.registerType (⟨[], ⟨[], []⟩⟩ : Server (List Char) TextOperation) textOTType)
        textOTTypeAlt).types = [("text", textOTTypeAlt)] := by
  refine ⟨?_, rfl, rfl⟩
  intro h
  have h2 := congrArg OTType.create h
  simp [textOTTypeAlt, textOTType] at h2

/-- C9 (amended): `registerType` keys the registry by the type's name;
re-registering the same type is idempotent; registering a different type
under an already-registered name silently overwrites the previous entry and
never fails (there is no TypeConflict error in the code). -/
theorem registerType_overwrite {σ ω : Type} (s : Server σ ω) (t t2 : OTType σ ω)
    (hname : t2.name = t.name) :
    Server.registerType (Server.registerType s t) t = Server.registerType s t ∧
    (Server.registerType (Server.registerType s t) t2).types = mapSet s.types t.name t2 := by
  constructor
  · show ({ s with types := mapSet (mapSet s.types t.name t) t.name t } : Server σ ω) = _
    rw [mapSet_mapSet]
    rfl
  · show mapSet (mapSet s.types t.name t) t2.name t2 = _
    rw [hname, mapSet_mapSet]

theorem registerType_overwrite_witness :
    (Server.registerType (Server.registerType
        (⟨[], ⟨[], []⟩⟩ : Server (List Char) TextOperation) textOTType) textOTType =
      Server.registerType (⟨[], ⟨[], []⟩⟩ : Server (List Char) TextOperation) textOTType) ∧
    (Server.registerType (Server.registerType
        (⟨[], ⟨[], []⟩⟩ : Server (List Char) TextOperation) textOTType) textOTTypeAlt).types =
      mapSet ([] : List (String × OTType (List Char) TextOperation)) textOTType.name textOTTypeAlt :=
  registerType_overwrite (⟨[], ⟨[], []⟩⟩ : Server (List Char) TextOperation)
    textOTType textOTTypeAlt rfl

/-- C3: for `submitOperation` on a known document with a registered type and
`revision ≤ v` (with the log holding exactly `v` entries), the committed and
returned operation is the left fold of `transform(acc, past_op, right)` over
the history entries at log indices `revision .. v-1`, oldest first — in
particular equal to `op` unchanged when `revision = v` — and the returned
revision is `v + 1`. -/
theorem submitOperation_catchup {σ ω : Type} (s : Server σ ω) (docId : String)
    (op : ω) (revision : Nat) (record : DocumentRecord σ) (ty : OTType σ ω)
    (hist : List ω)
    (hrec : mapGet s.backend.documents docId = some record)
    (hty : mapGet s.types record.type = some ty)
    (hhist : mapGet s.backend.history docId = some hist)
    (hlen : hist.length = record.v)
    (hrev : revision ≤ record.v) :
    ∃ s2,
      s.submitOperation docId op revision =
        .ok (((hist.drop revision).foldl
                (fun acc pastOp => ty.transform acc pastOp .right) op,
              record.v + 1), s2) ∧
      mapGet s2.backend.history docId =
        some (hist ++ [(hist.drop revision).foldl
          (fun acc pastOp => ty.transform acc pastOp .right) op]) ∧
      mapGet s2.backend.documents docId = some { record with v := record.v + 1 } ∧
      (revision = record.v →
        (hist.drop revision).foldl
          (fun acc pastOp => ty.transform acc pastOp .right) op = op) := by
  have hgr : s.backend.getRecord docId = .ok record := by
    rw [MemoryBackend.getRecord, hrec]
  have hdropnil : revision = record.v → hist.drop revision = [] := by
    intro h
    exact List.drop_of_length_le (by omega)
  have hfold : (if revision < record.v then
        (s.backend.getHistory docId revision none).foldl
          (fun acc pastOp => ty.transform acc pastOp .right) op
      else op) =
      (hist.drop revision).foldl (fun acc pastOp => ty.transform acc pastOp .right) op := by
    rcases Nat.lt_or_ge revision record.v with hlt | hge
    · rw [if_pos hlt]
      simp [MemoryBackend.getHistory, hhist]
    · have heq : revision = record.v := by omega
      rw [if_neg (by omega), hdropnil heq, List.foldl_nil]
  refine ⟨{ s with backend := { s.backend with
      documents := mapSet s.backend.documents docId { record with v := record.v + 1 },
      history := mapSet s.backend.history docId
        (hist ++ [(hist.drop revision).foldl
          (fun acc pastOp => ty.transform acc pastOp .right) op]) } },
    ?_, ?_, ?_, ?_⟩
  · simp only [Server.submitOperation, hgr, hty, if_neg (show ¬record.v < revision by omega),
      MemoryBackend.saveOperation, hrec, if_neg (show ¬(record.v + 1 ≠ record.v + 1) by omega),
      hhist, hfold]
  · exact mapGet_mapSet_self ..
  · exact mapGet_mapSet_self ..
  · intro h
    rw [hdropnil h, List.foldl_nil]


/-- C1: TP1 convergence of the text type. For every snapshot `s` and
well-formed (normalized) operations `a`, `b` that both apply to `s`,
`apply(apply(s,a), transform(b,a,right))` and
`apply(apply(s,b), transform(a,b,left))` both succeed and give the same
snapshot. -/
theorem tp1_convergence (s : List Char) (a b : TextOperation)
    (hna : normalizedOp a = true) (hnb : normalizedOp b = true)
    (t₁ t₂ : List Char)
    (ha : TextType.apply s a = some t₁) (hb : TextType.apply s b = some t₂) :
    ∃ u, TextType.apply t₁ (TextType.transform b a .right) = some u ∧
         TextType.apply t₂ (TextType.transform a b .left) = some u := by
  rw [apply_eq_applyRec] at ha hb
  obtain ⟨u, hu1, hu2⟩ := tp1Aux (a.length + b.length) a b s t₁ t₂ le_rfl ha hb
  refine ⟨u, ?_, ?_⟩
  · rw [apply_eq_applyRec, TextType.transform, applyRec_normalize, applyRec_normalize]
    exact hu1
  · rw [apply_eq_applyRec, TextType.transform, applyRec_normalize, applyRec_normalize]
    exact hu2

theorem tp1_convergence_witness :
    ∃ u, TextType.apply ['X', 'a', 'b'] (TextType.transform [.delete 1] [.insert ['X']] .right) =
      some u ∧
    TextType.apply ['b'] (TextType.transform [.insert ['X']] [.delete 1] .left) = some u :=
  tp1_convergence ['a', 'b'] [.insert ['X']] [.delete 1] (by decide) (by decide)
    ['X', 'a', 'b'] ['b'] rfl rfl

/-- C2: compose is correct over apply: if `a` applies to `s` and `b` applies
to `apply(s,a)`, then `apply(s, compose(a,b)) = apply(apply(s,a), b)`. -/
theorem compose_apply_correct (s : List Char) (a b : TextOperation) (t u : List Char)
    (ha : TextType.apply s a = some t) (hb : TextType.apply t b = some u) :
    TextType.apply s (TextType.compose a b) = some u := by
  rw [apply_eq_applyRec] at ha hb ⊢
  rw [TextType.compose, applyRec_normalize, applyRec_normalize]
  exact composeAux (a.length + b.length) a b s t u le_rfl ha hb

theorem compose_apply_correct_witness :
    TextType.apply ['a'] (TextType.compose [.insert ['X']] [.delete 1]) = some ['a'] :=
  compose_apply_correct ['a'] [.insert ['X']] [.delete 1] ['X', 'a'] ['a'] rfl rfl

theorem checkOp_map_comp (op : TextOperation) : checkOp (op.map .comp) = true := by
  simp [checkOp]

theorem stripRaw_map_comp (op : TextOperation) : stripRaw (op.map .comp) = op := by
  induction op with
  | nil => rfl
  | cons c rest ih => simp [stripRaw] at ih ⊢; exact ih

/-- C5: on a well-formed (normalized) operation, `apply` fails with
`OpOutOfBounds` exactly when some prefix of the scan consumes (by Retain or
Delete) more than `len(snapshot)` units; otherwise the result is the scanned
output followed by the untraversed tail of the snapshot, copied through
unchanged (lenient tail). -/
theorem apply_oob_lenient (s : List Char) (op : TextOperation)
    (hn : normalizedOp op = true) :
    (applyR s (op.map .comp) = .error .opOutOfBounds ↔
      ∃ k, s.length < consumedLen (op.take k)) ∧
    (∀ r, applyR s (op.map .comp) = .ok r →
      r = outputNoTail op s ++ s.drop (consumedLen op)) := by
  have hck : checkOp (op.map .comp) = true := checkOp_map_comp op
  have hst : stripRaw (op.map .comp) = op := stripRaw_map_comp op
  have happly : TextType.apply s op = applyRec op s := apply_eq_applyRec s op
  constructor
  · rw [applyR, if_pos hck, hst, ← applyRec_eq_none_iff op s, ← happly]
    cases hap : TextType.apply s op with
    | none => simp
    | some r => simp [hap]
  · intro r hr
    rw [applyR, if_pos hck, hst] at hr
    cases hap : TextType.apply s op with
    | none => rw [hap] at hr; exact absurd hr (by simp)
    | some r2 =>
        rw [hap] at hr
        simp only [Except.ok.injEq] at hr
        subst hr
        exact applyRec_some_eq op s r2 (by rw [← happly]; exact hap)

theorem apply_oob_lenient_witness :
    (applyR ['a', 'b'] (([.retain 1] : TextOperation).map RawComponent.comp) =
        .error .opOutOfBounds ↔
      ∃ k, (['a', 'b'] : List Char).length <
        consumedLen (([.retain 1] : TextOperation).take k)) ∧
    (∀ r, applyR ['a', 'b'] (([.retain 1] : TextOperation).map RawComponent.comp) = .ok r →
      r = outputNoTail [.retain 1] ['a', 'b'] ++
        (['a', 'b'] : List Char).drop (consumedLen [.retain 1])) :=
  apply_oob_lenient ['a', 'b'] [.retain 1] (by decide)

/-- C7: the Insert-vs-Insert tie-break at a common position:
`transform([r3, i"A"], [r3, i"B"], left) = [r3, i"A", r1]` and
`transform([r3, i"B"], [r3, i"A"], right) = [r4, i"B"]`. -/
theorem transform_insert_tiebreak :
    TextType.transform [.retain 3, .insert ['A']] [.retain 3, .insert ['B']] .left =
      [.retain 3, .insert ['A'], .retain 1] ∧
    TextType.transform [.retain 3, .insert ['B']] [.retain 3, .insert ['A']] .right =
      [.retain 4, .insert ['B']] := by
  constructor <;>
    simp [TextType.transform, transformGo, normalize, appendComp, pushMerge, getLength]

theorem checkOp_false_iff (op : List RawComponent) :
    checkOp op = false ↔ RawComponent.unknown ∈ op := by
  induction op with
  | nil => simp [checkOp]
  | cons c rest ih => cases c <;> simp [checkOp, List.all_cons, *] <;> simp [checkOp] at ih <;>
      exact ih

/-- C8 (amended): `apply`, `transform` and `compose` fail with `OpMalformed`
exactly when an input operation contains an unknown component (one that is
none of Insert/Retain/Delete); `checkOp` does not reject non-normalized
operations. When both inputs pass `checkOp`, `transform` and `compose` never
fail — in particular never on well-formed inputs. -/
theorem opMalformed_exact (s : List Char) (a b : List RawComponent) (side : Side) :
    (applyR s a = .error .opMalformed ↔ RawComponent.unknown ∈ a) ∧
    (transformR a b side = .error .opMalformed ↔
      (RawComponent.unknown ∈ a ∨ RawComponent.unknown ∈ b)) ∧
    (composeR a b = .error .opMalformed ↔
      (RawComponent.unknown ∈ a ∨ RawComponent.unknown ∈ b)) ∧
    (RawComponent.unknown ∉ a → RawComponent.unknown ∉ b →
      (∃ r, transformR a b side = .ok r) ∧ (∃ r, composeR a b = .ok r)) := by
  refine ⟨?_, ?_, ?_, ?_⟩
  · rw [← checkOp_false_iff]
    cases hck : checkOp a with
    | false => simp [applyR, hck]
    | true =>
        simp only [applyR, hck, if_pos]
        cases TextType.apply s (stripRaw a) <;> simp
  · rw [← checkOp_false_iff, ← checkOp_false_iff]
    cases hca : checkOp a with
    | false => simp [transformR, hca]
    | true => cases hcb : checkOp b with
        | false => simp [transformR, hca, hcb]
        | true => simp [transformR, hca, hcb]
  · rw [← checkOp_false_iff, ← checkOp_false_iff]
    cases hca : checkOp a with
    | false => simp [composeR, hca]
    | true => cases hcb : checkOp b with
        | false => simp [composeR, hca, hcb]
        | true => simp [composeR, hca, hcb]
  · intro hua hub
    have hca : checkOp a = true := by
      cases hck : checkOp a with
      | true => rfl
      | false => exact absurd (checkOp_false_iff a |>.mp hck) hua
    have hcb : checkOp b = true := by
      cases hck : checkOp b with
      | true => rfl
      | false => exact absurd (checkOp_false_iff b |>.mp hck) hub
    exact ⟨⟨TextType.transform (stripRaw a) (stripRaw b) side, by simp [transformR, hca, hcb]⟩,
      ⟨TextType.compose (stripRaw a) (stripRaw b), by simp [composeR, hca, hcb]⟩⟩

/-- C8 counterexample: the non-normalized operation `[{r:1},{r:1}]` (two
consecutive retains, no unknown component) is accepted by both `compose` and
`apply` with no `OpMalformed` error, refuting "fails exactly when
non-normalized or unknown". -/
theorem opMalformed_counterexample :
    normalizedRaw [RawComponent.comp (.retain 1), RawComponent.comp (.retain 1)] = false ∧
    composeR [RawComponent.comp (.retain 1), RawComponent.comp (.retain 1)] [] =
      .ok [.retain 2] ∧
    applyR ['a', 'b'] [RawComponent.comp (.retain 1), RawComponent.comp (.retain 1)] =
      .ok ['a', 'b'] := by
  refine ⟨by decide, ?_, rfl⟩
  simp [composeR, checkOp, stripRaw, TextType.compose, composeGo, normalize, appendComp,
    pushMerge, getLength]

theorem submitOperation_catchup_witness :
    ∃ s2,
      (⟨[("text", textOTType)],
        ⟨[("doc1", ⟨"text", 1, ([] : List Char)⟩)],
         [("doc1", [[OpComponent.insert ['H']]])]⟩⟩ :
          Server (List Char) TextOperation).submitOperation "doc1" [.insert ['W']] 0 =
        .ok ((TextType.transform [.insert ['W']] [.insert ['H']] .right, 2), s2) ∧
      mapGet s2.backend.history "doc1" =
        some [[.insert ['H']], TextType.transform [.insert ['W']] [.insert ['H']] .right] ∧
      mapGet s2.backend.documents "doc1" = some ⟨"text", 2, []⟩ ∧
      (0 = 1 → TextType.transform [.insert ['W']] [.insert ['H']] .right = [.insert ['W']]) :=
  submitOperation_catchup
    (⟨[("text", textOTType)],
      ⟨[("doc1", ⟨"text", 1, ([] : List Char)⟩)],
       [("doc1", [[OpComponent.insert ['H']]])]⟩⟩ : Server (List Char) TextOperation)
    "doc1" [.insert ['W']] 0 ⟨"text", 1, []⟩ textOTType [[.insert ['H']]]
    rfl rfl rfl rfl (by omega)

end OpenOT
